import Mathlib

/-!
Verification development for the harmonic-inference decoding engine and its
notebook call sites.  Pure fragments of the code are embedded as Lean
definitions; the trained submodels themselves are opaque collaborators and
appear only as function-valued inputs.
-/

namespace HarmonicInference

/-! ## Checkpoint loading (the "Load models" cell) -/

/-- A trained submodel as produced by checkpoint loading: the checkpoint path
it was loaded from and whether `freeze()` has been applied to it. -/
structure LoadedModel where
  path : String
  frozen : Bool
deriving DecidableEq

/-- Embeds `model_class.load_from_checkpoint(checkpoint)`: the returned model
remembers its checkpoint path and is not yet frozen. -/
def load_from_checkpoint (checkpoint : String) : LoadedModel :=
  { path := checkpoint, frozen := false }

/-- Embeds `model.freeze()`. -/
def freeze (m : LoadedModel) : LoadedModel :=
  { m with frozen := true }

/-- Embeds the per-model body of the model-loading loop:
`possible_checkpoints = sorted(glob(model_paths[model_name]))`; if the list is
empty, `sys.exit(2)` (modelled as `Except.error 2`); if it has exactly one
element that element is loaded; otherwise `possible_checkpoints[-1]` is
loaded; the loaded model is frozen before being stored. -/
def loadModel (matching : List String) : Except Nat LoadedModel :=
  match List.insertionSort (fun a b => a ≤ b) matching with
  | [] => Except.error 2
  | [checkpoint] => Except.ok (freeze (load_from_checkpoint checkpoint))
  | _ :: c :: rest =>
      Except.ok (freeze (load_from_checkpoint
        (List.getLast (c :: rest) (List.cons_ne_nil c rest))))

/-- In a list sorted by `≤`, every member is at most the last element. -/
theorem le_getLast_of_sorted {α : Type} [LinearOrder α] :
    ∀ (l : List α) (hl : l ≠ []) (_ : l.Sorted (· ≤ ·)) (x : α) (_ : x ∈ l),
      x ≤ l.getLast hl
  | [], hl, _, _, _ => absurd rfl hl
  | [a], _, _, x, hx => by
      simp only [List.mem_singleton] at hx
      simp [hx]
  | a :: b :: t, _, hs, x, hx => by
      rw [List.sorted_cons] at hs
      rw [List.getLast_cons (List.cons_ne_nil b t)]
      rcases List.mem_cons.mp hx with h | h
      · subst h
        exact le_trans (hs.1 _ (List.getLast_mem _))
          (le_refl _)
      · exact le_getLast_of_sorted (b :: t) (List.cons_ne_nil b t) hs.2 x h

/-- C10: for every submodel other than the initial-chord model, if at least
one checkpoint file matches the search pattern the model is loaded from the
lexicographically last matching path under sorted order and frozen before
use; if no checkpoint matches, loading terminates with an error exit
(`sys.exit(2)`). -/
theorem loadModel_selects_last_sorted_and_freezes (matching : List String) :
    (matching = [] → loadModel matching = Except.error 2) ∧
    (matching ≠ [] → ∃ m : LoadedModel,
      loadModel matching = Except.ok m ∧
      m.frozen = true ∧
      m.path ∈ matching ∧
      ∀ x ∈ matching, x ≤ m.path) := by
  constructor
  · intro h
    subst h
    rfl
  · intro hne
    have hperm : List.Perm (List.insertionSort (fun a b => a ≤ b) matching)
        matching :=
      List.perm_insertionSort _ _
    have hsorted : (List.insertionSort (fun a b => a ≤ b) matching).Sorted
        (fun a b => a ≤ b) :=
      List.sorted_insertionSort _ _
    rcases hs : List.insertionSort (fun a b => a ≤ b) matching with _ | ⟨a, t⟩
    · rw [hs] at hperm
      exact absurd (hperm.nil_eq.symm) hne
    · rw [hs] at hperm hsorted
      rcases t with _ | ⟨b, t2⟩
      · refine ⟨freeze (load_from_checkpoint a), ?_, rfl, ?_, ?_⟩
        · unfold loadModel
          rw [hs]
        · exact hperm.mem_iff.mp (List.mem_singleton_self a)
        · intro x hx
          have hx2 : x ∈ [a] := hperm.mem_iff.mpr hx
          have : x ≤ List.getLast [a] (List.cons_ne_nil a []) :=
            le_getLast_of_sorted [a] (List.cons_ne_nil a []) hsorted x hx2
          simpa using this
      · refine ⟨freeze (load_from_checkpoint
          (List.getLast (b :: t2) (List.cons_ne_nil b t2))), ?_, rfl, ?_, ?_⟩
        · unfold loadModel
          rw [hs]
        · have hmem : List.getLast (b :: t2) (List.cons_ne_nil b t2) ∈
              a :: b :: t2 := by
            exact List.mem_cons_of_mem a (List.getLast_mem _)
          exact hperm.mem_iff.mp hmem
        · intro x hx
          have hx2 : x ∈ a :: b :: t2 := hperm.mem_iff.mpr hx
          have hlast : List.getLast (a :: b :: t2) (List.cons_ne_nil a (b :: t2)) =
              List.getLast (b :: t2) (List.cons_ne_nil b t2) :=
            List.getLast_cons (List.cons_ne_nil b t2)
          have := le_getLast_of_sorted (a :: b :: t2)
            (List.cons_ne_nil a (b :: t2)) hsorted x hx2
          rw [hlast] at this
          exact this

/-- Witness for C10 at a concrete input: three matching checkpoint paths. -/
theorem loadModel_selects_last_sorted_and_freezes_witness :
    ∃ m : LoadedModel,
      loadModel ["ckpt2", "ckpt0", "ckpt1"] = Except.ok m ∧
      m.frozen = true ∧
      m.path ∈ ["ckpt2", "ckpt0", "ckpt1"] ∧
      ∀ x ∈ ["ckpt2", "ckpt0", "ckpt1"], x ≤ m.path :=
  (loadModel_selects_last_sorted_and_freezes ["ckpt2", "ckpt0", "ckpt1"]).2
    (by decide)

/-! ## The decoding State -/

/-- A chord range: a half-open interval of frame indices. -/
abbrev ChordRange := Nat × Nat

/-- Modelled from the spec: a `State` is an immutable decoding hypothesis
holding the current key index, the ordered chord history (label index paired
with its frame range), the ordered key history (key index paired with its
start frame), and the cumulative joint log-probability.  The engine module
`harmonic_inference.utils.beam_search_utils` is not under src/; only its
call sites are. -/
structure State where
  key : Nat
  chord_history : List (Nat × ChordRange)
  key_history : List (Nat × Nat)
  log_prob : ℚ
deriving DecidableEq

/-- The frame at which the next chord of a state must start: the end of its
last chord range, or frame 0 for a fresh root state. -/
def State.currentEnd (s : State) : Nat :=
  match s.chord_history.getLast? with
  | none => 0
  | some entry => entry.2.2

/-- Modelled from the spec: `State.chord_transition(chord, range_end,
log_prob, ...)` returns a new state whose chord history is extended by the
new chord over `[currentEnd, range_end)` and whose cumulative log-probability
is increased by the transition log-probability (label-formatting arguments of
the engine signature are omitted). -/
def State.chord_transition (s : State) (chord : Nat) (range_end : Nat)
    (lp : ℚ) : State :=
  { s with
    chord_history := s.chord_history ++ [(chord, (s.currentEnd, range_end))],
    log_prob := s.log_prob + lp }

/-- Modelled from the spec: `State.key_transition(key, log_prob, ...)`
returns a new state with the new key appended to the key history at the
current frame and the cumulative log-probability increased by the transition
log-probability. -/
def State.key_transition (s : State) (key : Nat) (lp : ℚ) : State :=
  { s with
    key := key,
    key_history := s.key_history ++ [(key, s.currentEnd)],
    log_prob := s.log_prob + lp }

/-- C3: every child produced by `chord_transition` or `key_transition` has
`log_prob` at most its parent's, because the appended per-transition term is
the logarithm of a probability and hence nonpositive. -/
theorem transition_log_prob_monotone (s : State) (chord range_end key : Nat)
    (lpc lpk : ℚ) (hc : lpc ≤ 0) (hk : lpk ≤ 0) :
    (s.chord_transition chord range_end lpc).log_prob ≤ s.log_prob ∧
    (s.key_transition key lpk).log_prob ≤ s.log_prob := by
  constructor
  · show s.log_prob + lpc ≤ s.log_prob
    linarith
  · show s.log_prob + lpk ≤ s.log_prob
    linarith

/-- Witness for C3 at a concrete state and concrete nonpositive
log-probabilities. -/
theorem transition_log_prob_monotone_witness :
    (State.chord_transition ⟨0, [], [(0, 0)], 0⟩ 3 4 (-1)).log_prob ≤
      (0 : ℚ) ∧
    (State.key_transition ⟨0, [], [(0, 0)], 0⟩ 2 (-2)).log_prob ≤ (0 : ℚ) :=
  transition_log_prob_monotone ⟨0, [], [(0, 0)], 0⟩ 3 4 2 (-1) (-2)
    (by norm_num) (by norm_num)

/-! ## The range proposer -/

/-- Modelled from the spec: the options for one interior frame of the
timeline, given its chord-change probability.  At or above
`max_no_chord_change_prob` the frame is always a boundary; strictly below
`min_chord_change_prob` it is never a boundary; in between both alternatives
are generated. -/
def boundaryChoices (minT maxT p : ℚ) : List Bool :=
  if maxT ≤ p then [true]
  else if p < minT then [false]
  else [true, false]

/-- Modelled from the spec: all candidate boundary assignments for a list of
interior-frame change probabilities (one Bool per frame: split here or not). -/
def boundarySets (minT maxT : ℚ) : List ℚ → List (List Bool)
  | [] => [[]]
  | p :: rest =>
      (boundaryChoices minT maxT p).flatMap fun b =>
        (boundarySets minT maxT rest).map fun bs => b :: bs

/-- Converts a boundary assignment for frames `i, i+1, ...` into chord
ranges: a range is closed at every chosen boundary, and the final range is
closed at the end of the timeline `N`. -/
def rangesFromBools (N : Nat) : Nat → Nat → List Bool → List ChordRange
  | start, _, [] => [(start, N)]
  | start, i, true :: rest => (start, i) :: rangesFromBools N i (i + 1) rest
  | start, i, false :: rest => rangesFromBools N start (i + 1) rest

/-- Modelled from the spec: `get_chord_ranges` (module
`harmonic_inference.models.joint_model`, not under src/) turns per-frame
chord-change probabilities into the list of candidate segmentations.  Frame 0
starts the first range of every candidate; each interior frame is a forced
boundary, a forced non-boundary, or branches, according to the thresholds. -/
def get_chord_ranges (changeProbs : List ℚ) (minT maxT : ℚ) :
    List (List ChordRange) :=
  match changeProbs with
  | [] => []
  | _ :: rest =>
      (boundarySets minT maxT rest).map
        (rangesFromBools changeProbs.length 0 1)

/-- `tilesFrom s l N` holds when the ranges of `l` are consecutive half-open
intervals starting at `s`, each nonempty, contiguous, and ending exactly at
`N`. -/
def tilesFrom (s : Nat) : List ChordRange → Nat → Bool
  | [], N => s == N
  | (a, b) :: rest, N => (a == s) && Nat.blt s b && tilesFrom b rest N

/-- A tiling that starts at `s` ends at some `N ≥ s`. -/
theorem tilesFrom_le : ∀ (l : List ChordRange) (s N : Nat),
    tilesFrom s l N = true → s ≤ N
  | [], s, N, h => by
      simp only [tilesFrom, beq_iff_eq] at h
      omega
  | (a, b) :: rest, s, N, h => by
      simp only [tilesFrom, Bool.and_eq_true, beq_iff_eq, Nat.blt_eq] at h
      have := tilesFrom_le rest b N h.2
      omega

/-- Semantic content of `tilesFrom`: the ranges are contiguous (each starts
where the previous one ends), nonempty, and their union is exactly
`[s, N)`. -/
theorem tilesFrom_spec : ∀ (l : List ChordRange) (s N : Nat),
    tilesFrom s l N = true →
      List.Chain' (fun r r2 => r.2 = r2.1) l ∧
      (∀ r ∈ l, r.1 < r.2) ∧
      (∀ x, (s ≤ x ∧ x < N) ↔ ∃ r ∈ l, r.1 ≤ x ∧ x < r.2)
  | [], s, N, h => by
      simp only [tilesFrom, beq_iff_eq] at h
      subst h
      refine ⟨List.chain'_nil, by simp, ?_⟩
      intro x
      simp only [List.not_mem_nil, false_and, exists_false, iff_false]
      omega
  | (a, b) :: rest, s, N, h => by
      simp only [tilesFrom, Bool.and_eq_true, beq_iff_eq, Nat.blt_eq] at h
      obtain ⟨⟨ha, hab⟩, htail⟩ := h
      subst ha
      obtain ⟨hchain, hpos, hcover⟩ := tilesFrom_spec rest b N htail
      have hbN : b ≤ N := tilesFrom_le rest b N htail
      refine ⟨?_, ?_, ?_⟩
      · rw [List.chain'_cons']
        refine ⟨?_, hchain⟩
        intro y hy
        rcases rest with _ | ⟨r2, rest2⟩
        · simp at hy
        · simp only [List.head?_cons, Option.mem_def, Option.some.injEq] at hy
          subst hy
          simp only [tilesFrom, Bool.and_eq_true, beq_iff_eq, Nat.blt_eq]
            at htail
          exact htail.1.1.symm
      · intro r hr
        rcases List.mem_cons.mp hr with h | h
        · subst h
          exact hab
        · exact hpos r h
      · intro x
        constructor
        · rintro ⟨hsx, hxN⟩
          by_cases hxb : x < b
          · exact ⟨(a, b), List.mem_cons_self _ _, hsx, hxb⟩
          · obtain ⟨r, hr, hcov⟩ := (hcover x).mp ⟨Nat.le_of_not_lt hxb, hxN⟩
            exact ⟨r, List.mem_cons_of_mem _ hr, hcov⟩
        · rintro ⟨r, hr, hr1, hr2⟩
          rcases List.mem_cons.mp hr with h | h
          · subst h
            exact ⟨hr1, Nat.lt_of_lt_of_le hr2 hbN⟩
          · obtain ⟨hbx, hxN⟩ := (hcover x).mpr ⟨r, h, hr1, hr2⟩
            exact ⟨Nat.le_trans (Nat.le_of_lt hab) hbx, hxN⟩

/-- Every range list produced by `rangesFromBools` tiles `[start, N)`. -/
theorem tilesFrom_rangesFromBools : ∀ (bs : List Bool) (start i N : Nat),
    start < i → i + bs.length = N →
    tilesFrom start (rangesFromBools N start i bs) N = true
  | [], start, i, N, hsi, hiN => by
      simp only [List.length_nil, Nat.add_zero] at hiN
      subst hiN
      simp [rangesFromBools, tilesFrom, Nat.blt_eq, hsi]
  | b :: rest, start, i, N, hsi, hiN => by
      simp only [List.length_cons] at hiN
      rcases b with _ | _
      · simp only [rangesFromBools]
        exact tilesFrom_rangesFromBools rest start (i + 1) N (by omega)
          (by omega)
      · have ih := tilesFrom_rangesFromBools rest i (i + 1) N (by omega)
          (by omega)
        simp [rangesFromBools, tilesFrom, Nat.blt_eq, hsi, ih]

/-- Every boundary assignment has one Bool per interior frame. -/
theorem boundarySets_length (minT maxT : ℚ) : ∀ (ps : List ℚ)
    (bs : List Bool), bs ∈ boundarySets minT maxT ps →
    bs.length = ps.length
  | [], bs, h => by
      simp only [boundarySets, List.mem_singleton] at h
      subst h
      rfl
  | p :: rest, bs, h => by
      simp only [boundarySets, List.mem_flatMap, List.mem_map] at h
      obtain ⟨b, _, bs2, hbs2, rfl⟩ := h
      simp only [List.length_cons, boundarySets_length minT maxT rest bs2 hbs2]

/-- Every candidate segmentation of `get_chord_ranges` tiles the full
timeline `[0, N)`. -/
theorem get_chord_ranges_tiles (changeProbs : List ℚ) (minT maxT : ℚ)
    (seg : List ChordRange)
    (hseg : seg ∈ get_chord_ranges changeProbs minT maxT) :
    tilesFrom 0 seg changeProbs.length = true := by
  rcases changeProbs with _ | ⟨p0, rest⟩
  · simp [get_chord_ranges] at hseg
  · simp only [get_chord_ranges, List.mem_map] at hseg
    obtain ⟨bs, hbs, rfl⟩ := hseg
    have hlen := boundarySets_length minT maxT rest bs hbs
    exact tilesFrom_rangesFromBools bs 0 1 (p0 :: rest).length
      Nat.zero_lt_one (by simp only [hlen, List.length_cons]; omega)

/-- `splitsAt seg k` holds when some range of the segmentation starts at
frame `k`, i.e. the proposer treated frame `k` as a chord boundary. -/
def splitsAt (seg : List ChordRange) (k : Nat) : Bool :=
  seg.any fun r => r.1 == k

/-- Each boundary assignment obeys the two thresholds pointwise: a frame at
or above `max_no_chord_change_prob` is always assigned a boundary, and a
frame strictly below `min_chord_change_prob` (and not forced) never is. -/
theorem boundarySets_spec (minT maxT : ℚ) : ∀ (ps : List ℚ) (bs : List Bool),
    bs ∈ boundarySets minT maxT ps → ∀ j, j < ps.length →
      (maxT ≤ ps.getD j 0 → bs.getD j false = true) ∧
      (ps.getD j 0 < minT → ¬ maxT ≤ ps.getD j 0 → bs.getD j false = false)
  | [], bs, _, j, hj => absurd hj (by simp)
  | p :: rest, bs, h, j, hj => by
      simp only [boundarySets, List.mem_flatMap, List.mem_map] at h
      obtain ⟨b, hb, bs2, hbs2, rfl⟩ := h
      rcases j with _ | j
      · simp only [List.getD_cons_zero]
        constructor
        · intro hle
          simp only [boundaryChoices, if_pos hle, List.mem_singleton] at hb
          exact hb
        · intro hlt hnle
          simp only [boundaryChoices, if_neg hnle, if_pos hlt,
            List.mem_singleton] at hb
          exact hb
      · simp only [List.getD_cons_succ]
        exact boundarySets_spec minT maxT rest bs2 hbs2 j
          (by simpa using Nat.lt_of_succ_lt_succ hj)

/-- Characterization of the boundaries of a produced range list: a range
starts at `k` exactly when `k` is the start of the whole span or the
boundary assignment selects the interior frame `k`. -/
theorem rangesFromBools_splitsAt : ∀ (bs : List Bool) (start i N k : Nat),
    splitsAt (rangesFromBools N start i bs) k = true ↔
      (k = start ∨ ∃ j, j < bs.length ∧ bs.getD j false = true ∧ k = i + j)
  | [], start, i, N, k => by
      simp only [rangesFromBools, splitsAt, List.any_cons, List.any_nil,
        Bool.or_false, beq_iff_eq, List.length_nil]
      constructor
      · intro h
        exact Or.inl h.symm
      · rintro (h | ⟨j, hj, _, _⟩)
        · exact h.symm
        · omega
  | b :: rest, start, i, N, k => by
      rcases b with _ | _
      · simp only [rangesFromBools]
        rw [show splitsAt (rangesFromBools N start (i + 1) rest) k =
          splitsAt (rangesFromBools N start (i + 1) rest) k from rfl]
        rw [rangesFromBools_splitsAt rest start (i + 1) N k]
        constructor
        · rintro (h | ⟨j, hj, hget, rfl⟩)
          · exact Or.inl h
          · exact Or.inr ⟨j + 1, by simpa using Nat.succ_lt_succ hj,
              by simpa using hget, by omega⟩
        · rintro (h | ⟨j, hj, hget, rfl⟩)
          · exact Or.inl h
          · rcases j with _ | j
            · simp at hget
            · exact Or.inr ⟨j, by simpa using Nat.lt_of_succ_lt_succ hj,
                by simpa using hget, by omega⟩
      · simp only [rangesFromBools, splitsAt, List.any_cons,
          Bool.or_eq_true, beq_iff_eq]
        rw [show ((rangesFromBools N i (i + 1) rest).any fun r => r.1 == k) =
          splitsAt (rangesFromBools N i (i + 1) rest) k from rfl]
        rw [rangesFromBools_splitsAt rest i (i + 1) N k]
        constructor
        · rintro (h | h | ⟨j, hj, hget, rfl⟩)
          · exact Or.inl h.symm
          · exact Or.inr ⟨0, by simp, by simp, by omega⟩
          · exact Or.inr ⟨j + 1, by simpa using Nat.succ_lt_succ hj,
              by simpa using hget, by omega⟩
        · rintro (h | ⟨j, hj, hget, rfl⟩)
          · exact Or.inl h.symm
          · rcases j with _ | j
            · exact Or.inr (Or.inl (by omega))
            · exact Or.inr (Or.inr ⟨j,
                by simpa using Nat.lt_of_succ_lt_succ hj,
                by simpa using hget, by omega⟩)

/-- C5: for any beam width (the range proposer's output does not depend on
it), an interior frame whose chord-change probability equals
`max_no_chord_change_prob` starts a range in every candidate segmentation,
and an interior frame strictly below `min_chord_change_prob` starts a range
in none, provided the lower threshold does not exceed the upper one. -/
theorem threshold_boundary_behavior (beam_width : Nat) (p : List ℚ)
    (minT maxT : ℚ) (hcfg : minT ≤ maxT) (i : Nat) (h1 : 1 ≤ i)
    (hiN : i < p.length) :
    (p.getD i 0 = maxT →
      ∀ seg ∈ get_chord_ranges p minT maxT, splitsAt seg i = true) ∧
    (p.getD i 0 < minT →
      ∀ seg ∈ get_chord_ranges p minT maxT, splitsAt seg i = false) := by
  rcases p with _ | ⟨p0, rest⟩
  · simp at hiN
  obtain ⟨i2, rfl⟩ : ∃ i2, i = i2 + 1 := ⟨i - 1, by omega⟩
  have hgd : (p0 :: rest).getD (i2 + 1) 0 = rest.getD i2 0 :=
    List.getD_cons_succ
  have hi2 : i2 < rest.length := by
    simp only [List.length_cons] at hiN
    omega
  constructor
  · intro hmax seg hseg
    simp only [get_chord_ranges, List.mem_map] at hseg
    obtain ⟨bs, hbs, rfl⟩ := hseg
    have hlen := boundarySets_length minT maxT rest bs hbs
    have hspec := (boundarySets_spec minT maxT rest bs hbs i2 hi2).1
      (by rw [hgd] at hmax; rw [hmax])
    rw [rangesFromBools_splitsAt]
    exact Or.inr ⟨i2, by omega, hspec, by omega⟩
  · intro hmin seg hseg
    simp only [get_chord_ranges, List.mem_map] at hseg
    obtain ⟨bs, hbs, rfl⟩ := hseg
    have hlen := boundarySets_length minT maxT rest bs hbs
    rw [hgd] at hmin
    have hnle : ¬ maxT ≤ rest.getD i2 0 := by
      intro hle
      exact absurd (lt_of_lt_of_le hmin hcfg) (not_lt.mpr hle)
    have hspec := (boundarySets_spec minT maxT rest bs hbs i2 hi2).2
      hmin hnle
    rcases Bool.eq_false_or_eq_true
      (splitsAt (rangesFromBools (p0 :: rest).length 0 1 bs) (i2 + 1)) with
      ht | hf
    case inr => exact hf
    · exfalso
      rw [rangesFromBools_splitsAt] at ht
      rcases ht with h | ⟨j, hj, hget, hk⟩
      · omega
      · have hji : j = i2 := by omega
        subst hji
        rw [hspec] at hget
        exact Bool.false_ne_true hget

/-- Witness for C5 at a concrete input: probabilities `[1, 1/2, 1/10]`,
thresholds `min = 1/5`, `max = 1/2`; frame 1 sits exactly at the upper
threshold and frame 2 strictly below the lower one. -/
theorem threshold_boundary_behavior_witness :
    (((1 : ℚ) :: (1/2 : ℚ) :: [(1/10 : ℚ)]).getD 1 0 = (1/2 : ℚ) →
      ∀ seg ∈ get_chord_ranges ((1 : ℚ) :: (1/2 : ℚ) :: [(1/10 : ℚ)])
        (1/5) (1/2), splitsAt seg 1 = true) ∧
    (((1 : ℚ) :: (1/2 : ℚ) :: [(1/10 : ℚ)]).getD 1 0 < (1/5 : ℚ) →
      ∀ seg ∈ get_chord_ranges ((1 : ℚ) :: (1/2 : ℚ) :: [(1/10 : ℚ)])
        (1/5) (1/2), splitsAt seg 1 = false) :=
  threshold_boundary_behavior 4 ((1 : ℚ) :: (1/2 : ℚ) :: [(1/10 : ℚ)])
    (1/5) (1/2) (by norm_num) 1 (by norm_num) (by norm_num)

/-! ## The joint decoder -/

/-- Modelled from the spec: the frozen outputs of the six trained submodels
for one piece.  The submodels themselves are external collaborators loaded
from checkpoints; the decoder consumes only their scores, so they appear here
as function-valued fields: the chord-change probabilities (CTM), the
initial-chord prior (ICM, collapsed to its best key and score), the chord
classifier (CCM), the chord-sequence prior (CSM), the key-change detector
(KTM) and the key-sequence model (KSM). -/
structure SubmodelOutputs where
  changeProbs : List ℚ
  icmKey : Nat
  icmScore : ℚ
  ccmLabel : ChordRange → Nat
  ccmScore : ChordRange → ℚ
  csmScore : List (Nat × ChordRange) → Nat → ℚ
  ktmProb : Nat → ℚ
  ksmKey : List (Nat × Nat) → Nat
  ksmScore : List (Nat × Nat) → Nat → ℚ

/-- Modelled from the spec: the decoder configuration knobs of
`HarmonicInferenceModel`. -/
structure DecodeConfig where
  min_chord_change_prob : ℚ
  max_no_chord_change_prob : ℚ
  key_change_threshold : ℚ
  beam_width : Nat
deriving DecidableEq

/-- Modelled from the spec: the root `State` built in the INIT phase, scored
by the initial-chord prior. -/
def rootState (outs : SubmodelOutputs) : State :=
  { key := outs.icmKey,
    chord_history := [],
    key_history := [(outs.icmKey, 0)],
    log_prob := outs.icmScore }

/-- Modelled from the spec: one decoding extension.  The state is extended by
`chord_transition` with the classifier label and the combined classifier plus
sequence-prior score for the range; if the range starts at a recognized
key-boundary candidate (key-change probability at or above the threshold),
the state additionally takes a `key_transition` scored by the key-sequence
model. -/
def decodeStep (outs : SubmodelOutputs) (cfg : DecodeConfig) (st : State)
    (r : ChordRange) : State :=
  let label := outs.ccmLabel r
  let st1 := st.chord_transition label r.2
    (outs.ccmScore r + outs.csmScore st.chord_history label)
  if 0 < r.1 ∧ cfg.key_change_threshold ≤ outs.ktmProb r.1 then
    st1.key_transition (outs.ksmKey st1.key_history)
      (outs.ksmScore st1.key_history (outs.ksmKey st1.key_history))
  else st1

/-- Modelled from the spec: the hypothesis built by extending the root state
once per range of a candidate segmentation. -/
def buildState (outs : SubmodelOutputs) (cfg : DecodeConfig)
    (seg : List ChordRange) : State :=
  seg.foldl (decodeStep outs cfg) (rootState outs)

/-- Modelled from the spec: selection of the single highest-`log_prob`
surviving state; on a tie the earliest-created state (the one earlier in the
creation-ordered list) wins, because a later state replaces the incumbent
only when its score is strictly greater. -/
def selectBest : List State → Option State
  | [] => none
  | s :: rest =>
      match selectBest rest with
      | none => some s
      | some b => some (if s.log_prob < b.log_prob then b else s)

/-- Modelled from the spec: `HarmonicInferenceModel.get_harmony` (module
`harmonic_inference.models.joint_model`, not under src/): propose candidate
segmentations from the chord-change probabilities, build one hypothesis per
candidate by batched scoring, and return the best surviving state. -/
def get_harmony (outs : SubmodelOutputs) (cfg : DecodeConfig) :
    Option State :=
  selectBest
    ((get_chord_ranges outs.changeProbs cfg.min_chord_change_prob
        cfg.max_no_chord_change_prob).map (buildState outs cfg))

/-- The selected state is drawn from the candidate list. -/
theorem selectBest_mem : ∀ (l : List State) (s : State),
    selectBest l = some s → s ∈ l
  | [], _, h => by simp [selectBest] at h
  | s0 :: rest, s, h => by
      simp only [selectBest] at h
      rcases hrest : selectBest rest with _ | b
      · rw [hrest] at h
        simp only [Option.some.injEq] at h
        exact h ▸ List.mem_cons_self s0 rest
      · rw [hrest] at h
        simp only [Option.some.injEq] at h
        by_cases hlt : s0.log_prob < b.log_prob
        · rw [if_pos hlt] at h
          exact List.mem_cons_of_mem s0 (h ▸ selectBest_mem rest b hrest)
        · rw [if_neg hlt] at h
          exact h ▸ List.mem_cons_self s0 rest

/-- `StartsChained c l` holds when each range of `l` starts where its
predecessor ended, beginning at `c`. -/
def StartsChained : Nat → List ChordRange → Prop
  | _, [] => True
  | c, r :: rest => r.1 = c ∧ StartsChained r.2 rest

/-- A tiling is starts-chained. -/
theorem tilesFrom_startsChained : ∀ (l : List ChordRange) (s N : Nat),
    tilesFrom s l N = true → StartsChained s l
  | [], _, _, _ => trivial
  | (a, b) :: rest, s, N, h => by
      simp only [tilesFrom, Bool.and_eq_true, beq_iff_eq, Nat.blt_eq] at h
      exact ⟨h.1.1, tilesFrom_startsChained rest b N h.2⟩

/-- A decode step appends exactly one chord-history entry covering
`[currentEnd, r.2)`; the optional key transition leaves the chord history
unchanged. -/
theorem decodeStep_chord_history (outs : SubmodelOutputs)
    (cfg : DecodeConfig) (st : State) (r : ChordRange) :
    (decodeStep outs cfg st r).chord_history =
      st.chord_history ++ [(outs.ccmLabel r, (st.currentEnd, r.2))] := by
  unfold decodeStep
  by_cases h : 0 < r.1 ∧ cfg.key_change_threshold ≤ outs.ktmProb r.1
  · rw [if_pos h]
    rfl
  · rw [if_neg h]
    rfl

/-- After a decode step the state's current end is the end of the range just
consumed. -/
theorem decodeStep_currentEnd (outs : SubmodelOutputs) (cfg : DecodeConfig)
    (st : State) (r : ChordRange) :
    (decodeStep outs cfg st r).currentEnd = r.2 := by
  unfold State.currentEnd
  rw [decodeStep_chord_history]
  rw [List.getLast?_concat]

/-- Folding decode steps over a starts-chained segmentation appends exactly
that segmentation to the ranges of the chord history. -/
theorem foldl_decodeStep_ranges (outs : SubmodelOutputs)
    (cfg : DecodeConfig) : ∀ (seg : List ChordRange) (st : State),
    StartsChained st.currentEnd seg →
    ((seg.foldl (decodeStep outs cfg) st).chord_history).map
        (fun e => e.2) =
      st.chord_history.map (fun e => e.2) ++ seg
  | [], st, _ => by simp
  | r :: rest, st, h => by
      obtain ⟨hr, hrest⟩ := h
      rw [List.foldl_cons]
      have hrec := foldl_decodeStep_ranges outs cfg rest
        (decodeStep outs cfg st r)
        (by rw [decodeStep_currentEnd]; exact hrest)
      rw [hrec, decodeStep_chord_history]
      simp only [List.map_append, List.map_cons, List.map_nil,
        List.append_assoc, List.cons_append, List.nil_append]
      obtain ⟨a, b⟩ := r
      have hr2 : a = st.currentEnd := hr
      subst hr2
      rfl

/-- C1: every decoded output's chord history tiles the timeline `[0, N)` —
the ranges are contiguous, nonempty, with union exactly `[0, N)` — and every
candidate segmentation produced by the range proposer `get_chord_ranges`
likewise tiles `[0, N)`. -/
theorem decoded_output_tiles (outs : SubmodelOutputs) (cfg : DecodeConfig)
    (st : State) (hdec : get_harmony outs cfg = some st) :
    (tilesFrom 0 (st.chord_history.map fun e => e.2)
        outs.changeProbs.length = true) ∧
    List.Chain' (fun r r2 => r.2 = r2.1)
      (st.chord_history.map fun e => e.2) ∧
    (∀ r ∈ (st.chord_history.map fun e => e.2), r.1 < r.2) ∧
    (∀ x, x < outs.changeProbs.length ↔
      ∃ r ∈ (st.chord_history.map fun e => e.2), r.1 ≤ x ∧ x < r.2) ∧
    ∀ seg ∈ get_chord_ranges outs.changeProbs cfg.min_chord_change_prob
        cfg.max_no_chord_change_prob,
      tilesFrom 0 seg outs.changeProbs.length = true := by
  have hmem := selectBest_mem _ st hdec
  simp only [List.mem_map] at hmem
  obtain ⟨seg, hseg, hbuild⟩ := hmem
  have htile := get_chord_ranges_tiles outs.changeProbs
    cfg.min_chord_change_prob cfg.max_no_chord_change_prob seg hseg
  have hchained : StartsChained (rootState outs).currentEnd seg := by
    have : (rootState outs).currentEnd = 0 := rfl
    rw [this]
    exact tilesFrom_startsChained seg 0 outs.changeProbs.length htile
  have hranges : (st.chord_history.map fun e => e.2) = seg := by
    rw [← hbuild]
    unfold buildState
    rw [foldl_decodeStep_ranges outs cfg seg (rootState outs) hchained]
    rfl
  rw [hranges]
  obtain ⟨hchain, hpos, hcover⟩ :=
    tilesFrom_spec seg 0 outs.changeProbs.length htile
  refine ⟨htile, hchain, hpos, ?_, ?_⟩
  · intro x
    constructor
    · intro hx
      exact (hcover x).mp ⟨Nat.zero_le x, hx⟩
    · intro hx
      exact ((hcover x).mpr hx).2
  · intro seg2 hseg2
    exact get_chord_ranges_tiles outs.changeProbs cfg.min_chord_change_prob
      cfg.max_no_chord_change_prob seg2 hseg2

/-- A concrete piece for the witnesses: one frame, trivial submodel scores. -/
def demoOuts : SubmodelOutputs :=
  { changeProbs := [1],
    icmKey := 0,
    icmScore := 0,
    ccmLabel := fun _ => 0,
    ccmScore := fun _ => 0,
    csmScore := fun _ _ => 0,
    ktmProb := fun _ => 0,
    ksmKey := fun _ => 0,
    ksmScore := fun _ _ => 0 }

/-- A concrete decoder configuration for the witnesses. -/
def demoCfg : DecodeConfig :=
  { min_chord_change_prob := 1/5,
    max_no_chord_change_prob := 4/5,
    key_change_threshold := 1,
    beam_width := 2 }

/-- The state decoded from `demoOuts` under `demoCfg`. -/
def demoState : State :=
  { key := 0,
    chord_history := [(0, (0, 1))],
    key_history := [(0, 0)],
    log_prob := 0 }

/-- Witness for C1 at the concrete one-frame piece. -/
theorem decoded_output_tiles_witness :
    (tilesFrom 0 (demoState.chord_history.map fun e => e.2)
        demoOuts.changeProbs.length = true) ∧
    List.Chain' (fun r r2 => r.2 = r2.1)
      (demoState.chord_history.map fun e => e.2) ∧
    (∀ r ∈ (demoState.chord_history.map fun e => e.2), r.1 < r.2) ∧
    (∀ x, x < demoOuts.changeProbs.length ↔
      ∃ r ∈ (demoState.chord_history.map fun e => e.2),
        r.1 ≤ x ∧ x < r.2) ∧
    ∀ seg ∈ get_chord_ranges demoOuts.changeProbs
        demoCfg.min_chord_change_prob demoCfg.max_no_chord_change_prob,
      tilesFrom 0 seg demoOuts.changeProbs.length = true :=
  decoded_output_tiles demoOuts demoCfg demoState (by
    simp [get_harmony, demoOuts, demoCfg, demoState, get_chord_ranges,
      boundarySets, rangesFromBools, buildState, rootState, decodeStep,
      selectBest, State.chord_transition, State.currentEnd])

/-- `selectBest` returns `none` only on the empty candidate list. -/
theorem selectBest_eq_none : ∀ (l : List State),
    selectBest l = none → l = []
  | [], _ => rfl
  | s :: rest, h => by
      simp only [selectBest] at h
      rcases hrest : selectBest rest with _ | b <;> rw [hrest] at h <;>
        simp at h

/-- The selected state is the first state of maximal `log_prob` in the
creation-ordered candidate list. -/
theorem selectBest_first_max : ∀ (l : List State) (s : State),
    selectBest l = some s →
    ∃ (i : Nat) (hi : i < l.length),
      l.get ⟨i, hi⟩ = s ∧
      (∀ (j : Nat) (hj : j < l.length),
        (l.get ⟨j, hj⟩).log_prob ≤ s.log_prob) ∧
      (∀ (j : Nat) (hj : j < l.length),
        (l.get ⟨j, hj⟩).log_prob = s.log_prob → i ≤ j)
  | [], s, h => by simp [selectBest] at h
  | s0 :: rest, s, h => by
      simp only [selectBest] at h
      rcases hrest : selectBest rest with _ | b
      · rw [hrest] at h
        simp only [Option.some.injEq] at h
        have hnil : rest = [] := selectBest_eq_none rest hrest
        subst hnil
        subst h
        refine ⟨0, by simp, rfl, ?_, ?_⟩
        · intro j hj
          simp only [List.length_singleton] at hj
          obtain rfl : j = 0 := by omega
          exact le_refl _
        · intro j hj _
          exact Nat.zero_le j
      · rw [hrest] at h
        simp only [Option.some.injEq] at h
        obtain ⟨ib, hib, hgetb, hmaxb, hearlyb⟩ :=
          selectBest_first_max rest b hrest
        by_cases hlt : s0.log_prob < b.log_prob
        · rw [if_pos hlt] at h
          subst h
          refine ⟨ib + 1, by simpa using Nat.succ_lt_succ hib, hgetb, ?_, ?_⟩
          · intro j hj
            rcases j with _ | j
            · exact le_of_lt hlt
            · exact hmaxb j (by simpa using Nat.lt_of_succ_lt_succ hj)
          · intro j hj heq
            rcases j with _ | j
            · exact absurd heq (ne_of_lt hlt)
            · exact Nat.succ_le_succ (hearlyb j
                (by simpa using Nat.lt_of_succ_lt_succ hj) heq)
        · rw [if_neg hlt] at h
          subst h
          have hle : b.log_prob ≤ s0.log_prob := le_of_not_lt hlt
          refine ⟨0, by simp, rfl, ?_, ?_⟩
          · intro j hj
            rcases j with _ | j
            · exact le_refl _
            · exact le_trans
                (hmaxb j (by simpa using Nat.lt_of_succ_lt_succ hj)) hle
          · intro j _ _
            exact Nat.zero_le j

/-- C2: two decodes with identical submodel outputs and identical
configuration (thresholds, beam width) produce the same result — the decoder
is a pure function of its inputs — and ties in `log_prob` are broken
deterministically: the selected state is the first (earliest-created) state
of maximal score in the creation-ordered candidate list. -/
theorem decode_deterministic (outs1 outs2 : SubmodelOutputs)
    (cfg1 cfg2 : DecodeConfig) (ho : outs1 = outs2) (hc : cfg1 = cfg2) :
    get_harmony outs1 cfg1 = get_harmony outs2 cfg2 ∧
    ∀ (l : List State) (s : State), selectBest l = some s →
      ∃ (i : Nat) (hi : i < l.length),
        l.get ⟨i, hi⟩ = s ∧
        (∀ (j : Nat) (hj : j < l.length),
          (l.get ⟨j, hj⟩).log_prob ≤ s.log_prob) ∧
        (∀ (j : Nat) (hj : j < l.length),
          (l.get ⟨j, hj⟩).log_prob = s.log_prob → i ≤ j) := by
  subst ho
  subst hc
  exact ⟨rfl, selectBest_first_max⟩

/-- Witness for C2 at the concrete one-frame piece. -/
theorem decode_deterministic_witness :
    get_harmony demoOuts demoCfg = get_harmony demoOuts demoCfg :=
  (decode_deterministic demoOuts demoOuts demoCfg demoCfg rfl rfl).1

/-! ## The debug observer -/

/-- A diagnostic record sent to the observer: the per-frame change
probabilities, the initial-chord prior, or a scored candidate range. -/
inductive DebugEvent where
  | changeProbs (ps : List ℚ)
  | initialPrior (key : Nat) (score : ℚ)
  | classification (r : ChordRange) (label : Nat) (score : ℚ)
deriving DecidableEq

/-- Modelled from the spec: decoding with an optional `DebugLogger`
attached.  When a debugger is attached, the decoder sends it the chord-change
probabilities (`debug_chord_change_probs`), the initial-chord prior
(`debug_initial_chord_prior`) and every scored candidate range
(`debug_chord_classifications`); the decoded result is computed from the same
scores in either case. -/
def get_harmony_debug (outs : SubmodelOutputs) (cfg : DecodeConfig)
    (debugAttached : Bool) : Option State × List DebugEvent :=
  let segs := get_chord_ranges outs.changeProbs cfg.min_chord_change_prob
    cfg.max_no_chord_change_prob
  let result := selectBest (segs.map (buildState outs cfg))
  let events :=
    if debugAttached then
      DebugEvent.changeProbs outs.changeProbs ::
      DebugEvent.initialPrior outs.icmKey outs.icmScore ::
      (segs.flatten.map fun r =>
        DebugEvent.classification r (outs.ccmLabel r) (outs.ccmScore r))
    else []
  (result, events)

/-- C7: decoding with a `DebugLogger` attached and decoding with no observer
produce identical decoded results; the observer receives intermediate values
but contributes nothing to the result, and with no observer nothing is
logged. -/
theorem debug_observer_no_influence (outs : SubmodelOutputs)
    (cfg : DecodeConfig) :
    (get_harmony_debug outs cfg true).1 = get_harmony outs cfg ∧
    (get_harmony_debug outs cfg false).1 = get_harmony outs cfg ∧
    (get_harmony_debug outs cfg false).2 = [] :=
  ⟨rfl, rfl, rfl⟩

/-! ## Batched submodel invocation -/

/-- Modelled from the spec: one vectorized chord-sequence-model call over a
batch of states, accumulating per-state results into one output buffer.  The
CSM is a pure function of the passed chord history, so it appears as a
function argument. -/
def csmBatchAux (csm : List (Nat × ChordRange) → List ℚ) :
    List State → List (List ℚ) → List (List ℚ)
  | [], acc => acc.reverse
  | s :: rest, acc => csmBatchAux csm rest (csm s.chord_history :: acc)

/-- Modelled from the spec: `run_csm_batched` scores the chord histories of a
batch of states with the chord-sequence model in one batched call. -/
def run_csm_batched (csm : List (Nat × ChordRange) → List ℚ)
    (states : List State) : List (List ℚ) :=
  csmBatchAux csm states []

/-- Modelled from the spec: one vectorized key-change-detector call over a
batch of states. -/
def ktmBatchAux (ktm : List (Nat × Nat) → ℚ) :
    List State → List ℚ → List ℚ
  | [], acc => acc.reverse
  | s :: rest, acc => ktmBatchAux ktm rest (ktm s.key_history :: acc)

/-- Modelled from the spec: `get_key_change_probs` scores the key histories
of a batch of states with the key-change detector in one batched call. -/
def get_key_change_probs (ktm : List (Nat × Nat) → ℚ)
    (states : List State) : List ℚ :=
  ktmBatchAux ktm states []

/-- The CSM batch accumulator computes a pointwise map. -/
theorem csmBatchAux_eq (csm : List (Nat × ChordRange) → List ℚ) :
    ∀ (states : List State) (acc : List (List ℚ)),
    csmBatchAux csm states acc =
      acc.reverse ++ states.map (fun s => csm s.chord_history)
  | [], acc => by simp [csmBatchAux]
  | s :: rest, acc => by
      simp only [csmBatchAux, List.map_cons]
      rw [csmBatchAux_eq csm rest (csm s.chord_history :: acc)]
      simp

/-- The KTM batch accumulator computes a pointwise map. -/
theorem ktmBatchAux_eq (ktm : List (Nat × Nat) → ℚ) :
    ∀ (states : List State) (acc : List ℚ),
    ktmBatchAux ktm states acc =
      acc.reverse ++ states.map (fun s => ktm s.key_history)
  | [], acc => by simp [ktmBatchAux]
  | s :: rest, acc => by
      simp only [ktmBatchAux, List.map_cons]
      rw [ktmBatchAux_eq ktm rest (ktm s.key_history :: acc)]
      simp

/-- C6: batched scoring equals scoring each state individually: the batched
result is the pointwise map of the single-state scorer, equals the
concatenation of singleton-batch runs, and a permutation of the batch
permutes the results identically (no cross-batch leakage, no shared mutable
accumulator), for both `run_csm_batched` and `get_key_change_probs`. -/
theorem batched_equals_individual (csm : List (Nat × ChordRange) → List ℚ)
    (ktm : List (Nat × Nat) → ℚ) (states states2 : List State)
    (hperm : List.Perm states states2) :
    run_csm_batched csm states =
      states.map (fun s => csm s.chord_history) ∧
    run_csm_batched csm states =
      (states.map fun s => run_csm_batched csm [s]).flatten ∧
    List.Perm (run_csm_batched csm states) (run_csm_batched csm states2) ∧
    get_key_change_probs ktm states =
      states.map (fun s => ktm s.key_history) ∧
    get_key_change_probs ktm states =
      (states.map fun s => get_key_change_probs ktm [s]).flatten ∧
    List.Perm (get_key_change_probs ktm states)
      (get_key_change_probs ktm states2) := by
  have hc : ∀ st : List State, run_csm_batched csm st =
      st.map (fun s => csm s.chord_history) := by
    intro st
    unfold run_csm_batched
    rw [csmBatchAux_eq]
    simp
  have hk : ∀ st : List State, get_key_change_probs ktm st =
      st.map (fun s => ktm s.key_history) := by
    intro st
    unfold get_key_change_probs
    rw [ktmBatchAux_eq]
    simp
  refine ⟨hc states, ?_, ?_, hk states, ?_, ?_⟩
  · rw [hc states]
    clear hperm
    induction states with
    | nil => rfl
    | cons s rest ih =>
        simp only [List.map_cons, List.flatten_cons, hc, List.map_nil]
        rw [ih]
        simp [hc]
  · rw [hc states, hc states2]
    exact hperm.map _
  · rw [hk states]
    clear hperm
    induction states with
    | nil => rfl
    | cons s rest ih =>
        simp only [List.map_cons, List.flatten_cons, hk, List.map_nil]
        rw [ih]
        simp [hk]
  · rw [hk states, hk states2]
    exact hperm.map _

/-- Witness for C6 at a concrete batch of two states. -/
theorem batched_equals_individual_witness :
    run_csm_batched (fun h => [(h.length : ℚ)]) [demoState, demoState] =
      [demoState, demoState].map
        (fun s => [(s.chord_history.length : ℚ)]) ∧
    run_csm_batched (fun h => [(h.length : ℚ)]) [demoState, demoState] =
      ([demoState, demoState].map
        (fun s => run_csm_batched (fun h => [(h.length : ℚ)]) [s])).flatten ∧
    List.Perm
      (run_csm_batched (fun h => [(h.length : ℚ)]) [demoState, demoState])
      (run_csm_batched (fun h => [(h.length : ℚ)]) [demoState, demoState]) ∧
    get_key_change_probs (fun h => (h.length : ℚ)) [demoState, demoState] =
      [demoState, demoState].map (fun s => (s.key_history.length : ℚ)) ∧
    get_key_change_probs (fun h => (h.length : ℚ)) [demoState, demoState] =
      ([demoState, demoState].map
        (fun s => get_key_change_probs (fun h => (h.length : ℚ)) [s])).flatten ∧
    List.Perm
      (get_key_change_probs (fun h => (h.length : ℚ)) [demoState, demoState])
      (get_key_change_probs (fun h => (h.length : ℚ)) [demoState, demoState]) :=
  batched_equals_individual (fun h => [(h.length : ℚ)])
    (fun h => (h.length : ℚ)) [demoState, demoState] [demoState, demoState]
    (List.Perm.refl _)

/-! ## Batch processing of pieces (src/Selim_project_data.ipynb) -/

/-- One piece of a batch as seen by the processing loop: its file id and the
outcome of constructing the two parallel `ScorePiece` analyses from its data
frames — `none` when construction raised (missing or malformed input), or
the chord lists of the relative and the local analysis. -/
structure PieceInput where
  id : Nat
  result : Option (List Nat × List Nat)
deriving DecidableEq

/-- A log record: `logging.error(f"No data created for file_id {id}")`. -/
inductive LogMsg where
  | noData (id : Nat)
deriving DecidableEq

/-- Outcome of a batch run: the log, the per-piece outputs written so far
(file id with the zipped relative/local chord rows), and — when the
chord-count assertion fired — the id of the offending piece. -/
structure BatchResult where
  logs : List LogMsg
  outputs : List (Nat × List (Nat × Nat))
  fatal : Option Nat
deriving DecidableEq

/-- Embeds the per-piece loop of `src/Selim_project_data.ipynb`: construction
failure is caught (`except Exception: logging.error(...); continue`) and only
that piece is skipped; a successfully constructed piece passes
`assert len(relative_piece.get_chords()) == len(local_piece.get_chords())`
— on mismatch the `AssertionError` propagates (modelled as a `fatal` result,
halting the run without processing the remaining pieces) — and otherwise its
zipped chord rows are written out. -/
def processBatch : List PieceInput → BatchResult
  | [] => ⟨[], [], none⟩
  | p :: rest =>
      match p.result with
      | none =>
          let r := processBatch rest
          ⟨LogMsg.noData p.id :: r.logs, r.outputs, r.fatal⟩
      | some (rel, loc) =>
          if rel.length = loc.length then
            let r := processBatch rest
            ⟨r.logs, (p.id, rel.zip loc) :: r.outputs, r.fatal⟩
          else ⟨[], [], some p.id⟩

/-- Batch runs decompose over append as long as the first part is
fatal-free. -/
theorem processBatch_append : ∀ (pre rest : List PieceInput),
    (processBatch pre).fatal = none →
    processBatch (pre ++ rest) =
      ⟨(processBatch pre).logs ++ (processBatch rest).logs,
       (processBatch pre).outputs ++ (processBatch rest).outputs,
       (processBatch rest).fatal⟩
  | [], rest, _ => by simp [processBatch]
  | p :: pre, rest, hfatal => by
      rcases hp : p.result with _ | ⟨rel, loc⟩
      · simp only [processBatch, hp] at hfatal
        have ih := processBatch_append pre rest hfatal
        simp only [List.cons_append, processBatch, hp, List.append_eq, ih]
      · by_cases hlen : rel.length = loc.length
        · simp only [processBatch, hp, if_pos hlen] at hfatal
          have ih := processBatch_append pre rest hfatal
          simp only [List.cons_append, processBatch, hp, if_pos hlen,
            List.append_eq, ih]
        · simp only [processBatch, hp, if_neg hlen] at hfatal
          exact Option.noConfusion hfatal

/-- C8: when the two parallel analyses of a piece disagree on chord count,
the batch run halts at that piece with a fatal assertion outcome carrying its
id: the remaining pieces are not processed, nothing of the offending piece is
written, and the inconsistency is not skipped the way a per-item construction
failure is. -/
theorem chord_count_mismatch_is_fatal (pre rest : List PieceInput)
    (q : PieceInput) (rel loc : List Nat) (hq : q.result = some (rel, loc))
    (hmis : rel.length ≠ loc.length)
    (hpre : (processBatch pre).fatal = none) :
    processBatch (pre ++ q :: rest) =
      ⟨(processBatch pre).logs, (processBatch pre).outputs, some q.id⟩ := by
  rw [processBatch_append pre (q :: rest) hpre]
  simp only [processBatch, hq, if_neg hmis, List.append_nil]

/-- Witness for C8: a healthy piece, then a piece whose two analyses have 2
and 1 chords, then an unreached piece. -/
theorem chord_count_mismatch_is_fatal_witness :
    processBatch ([⟨0, some ([1], [1])⟩] ++ ⟨1, some ([1, 2], [1])⟩ ::
        [⟨2, some ([3], [3])⟩]) =
      ⟨(processBatch [⟨0, some ([1], [1])⟩]).logs,
       (processBatch [⟨0, some ([1], [1])⟩]).outputs, some 1⟩ :=
  chord_count_mismatch_is_fatal [⟨0, some ([1], [1])⟩]
    [⟨2, some ([3], [3])⟩] ⟨1, some ([1, 2], [1])⟩ [1, 2] [1]
    (by decide) (by decide) (by decide)

/-- C9: when constructing one piece raises (missing/malformed input), that
failure is logged and only that piece is skipped: outputs and fatal status
are the same as for the batch without it, every other piece is still
processed, and the outputs already produced for earlier pieces are an
unchanged prefix. -/
theorem construction_failure_skips_one_piece (pre rest : List PieceInput)
    (q : PieceInput) (hq : q.result = none)
    (hpre : (processBatch pre).fatal = none) :
    (processBatch (pre ++ q :: rest)).outputs =
      (processBatch (pre ++ rest)).outputs ∧
    (processBatch (pre ++ q :: rest)).fatal =
      (processBatch (pre ++ rest)).fatal ∧
    (processBatch (pre ++ q :: rest)).logs =
      (processBatch pre).logs ++ LogMsg.noData q.id ::
        (processBatch rest).logs ∧
    (processBatch (pre ++ q :: rest)).outputs =
      (processBatch pre).outputs ++ (processBatch rest).outputs := by
  rw [processBatch_append pre (q :: rest) hpre,
    processBatch_append pre rest hpre]
  simp [processBatch, hq]

/-- Witness for C9: a healthy piece, a piece whose construction raised, and a
later healthy piece. -/
theorem construction_failure_skips_one_piece_witness :
    (processBatch ([⟨0, some ([1], [1])⟩] ++ ⟨1, none⟩ ::
        [⟨2, some ([3], [3])⟩])).outputs =
      (processBatch ([⟨0, some ([1], [1])⟩] ++
        [⟨2, some ([3], [3])⟩])).outputs ∧
    (processBatch ([⟨0, some ([1], [1])⟩] ++ ⟨1, none⟩ ::
        [⟨2, some ([3], [3])⟩])).fatal =
      (processBatch ([⟨0, some ([1], [1])⟩] ++
        [⟨2, some ([3], [3])⟩])).fatal ∧
    (processBatch ([⟨0, some ([1], [1])⟩] ++ ⟨1, none⟩ ::
        [⟨2, some ([3], [3])⟩])).logs =
      (processBatch [⟨0, some ([1], [1])⟩]).logs ++ LogMsg.noData 1 ::
        (processBatch [⟨2, some ([3], [3])⟩]).logs ∧
    (processBatch ([⟨0, some ([1], [1])⟩] ++ ⟨1, none⟩ ::
        [⟨2, some ([3], [3])⟩])).outputs =
      (processBatch [⟨0, some ([1], [1])⟩]).outputs ++
        (processBatch [⟨2, some ([3], [3])⟩]).outputs :=
  construction_failure_skips_one_piece [⟨0, some ([1], [1])⟩]
    [⟨2, some ([3], [3])⟩] ⟨1, none⟩ (by decide) (by decide)

/-! ## Label one-hot indexing -/

/-- Modelled from the spec: the configuration the label⇄index mapping
depends on — the pitch representation (its pitch count), the chord-type
vocabulary size, and whether inversions and relative chords are tracked. -/
structure LabelConfig where
  numPitches : Nat
  numChordTypes : Nat
  useInversions : Bool
  useRelative : Bool
deriving DecidableEq

/-- Modelled from the spec: a structural chord label — root interval, chord
type, inversion, and (when relative chords are modeled) relative-key offset
and mode. -/
structure ChordLabel where
  root : Nat
  chordType : Nat
  inversion : Nat
  relRoot : Nat
  relMode : Nat
deriving DecidableEq

/-- The label space determined by a configuration: field bounds, with the
untracked fields pinned to zero. -/
def ChordLabel.Valid (cfg : LabelConfig) (l : ChordLabel) : Prop :=
  l.root < cfg.numPitches ∧ l.chordType < cfg.numChordTypes ∧
  (if cfg.useInversions then l.inversion < 4 else l.inversion = 0) ∧
  (if cfg.useRelative then l.relRoot < cfg.numPitches ∧ l.relMode < 2
    else l.relRoot = 0 ∧ l.relMode = 0)

/-- Modelled from the spec: `Chord.get_one_hot_index(relative,
use_inversion, ...)` — the deterministic dense index of a chord label,
mixed-radix over the tracked fields (inversion fastest, then chord type,
root, and the relative-key fields). -/
def ChordLabel.get_one_hot_index (cfg : LabelConfig) (l : ChordLabel) :
    Nat :=
  let invSize := if cfg.useInversions then 4 else 1
  let rel := if cfg.useRelative
    then l.relMode * cfg.numPitches + l.relRoot else 0
  let invEff := if cfg.useInversions then l.inversion else 0
  ((rel * cfg.numPitches + l.root) * cfg.numChordTypes + l.chordType)
    * invSize + invEff

/-- Modelled from the spec: decoding a dense chord index back to its
structural label under the same configuration. -/
def decodeChordLabel (cfg : LabelConfig) (n : Nat) : ChordLabel :=
  let invSize := if cfg.useInversions then 4 else 1
  let inv := if cfg.useInversions then n % invSize else 0
  let n1 := n / invSize
  let t := n1 % cfg.numChordTypes
  let n2 := n1 / cfg.numChordTypes
  let r := n2 % cfg.numPitches
  let n3 := n2 / cfg.numPitches
  let rr := if cfg.useRelative then n3 % cfg.numPitches else 0
  let m := if cfg.useRelative then n3 / cfg.numPitches else 0
  ⟨r, t, inv, rr, m⟩

/-- The chord-label space membership is decidable. -/
instance chordLabelValidDecidable (cfg : LabelConfig) (l : ChordLabel) :
    Decidable (l.Valid cfg) := by
  unfold ChordLabel.Valid
  infer_instance

/-- Modelled from the spec: a key label — tonic interval and mode. -/
structure KeyLabel where
  tonic : Nat
  mode : Nat
deriving DecidableEq

/-- The key-label space determined by a configuration. -/
def KeyLabel.Valid (cfg : LabelConfig) (k : KeyLabel) : Prop :=
  k.tonic < cfg.numPitches ∧ k.mode < 2

/-- The key-label space membership is decidable. -/
instance keyLabelValidDecidable (cfg : LabelConfig) (k : KeyLabel) :
    Decidable (k.Valid cfg) := by
  unfold KeyLabel.Valid
  infer_instance

/-- Modelled from the spec: `Key.get_one_hot_index()` — the dense index of a
key label (tonic fastest, then mode). -/
def KeyLabel.get_one_hot_index (cfg : LabelConfig) (k : KeyLabel) : Nat :=
  k.mode * cfg.numPitches + k.tonic

/-- Modelled from the spec: decoding a dense key index back to its label. -/
def decodeKeyLabel (cfg : LabelConfig) (n : Nat) : KeyLabel :=
  ⟨n % cfg.numPitches, n / cfg.numPitches⟩

/-- Extracting the least-significant mixed-radix digit. -/
theorem digit_mod_div (x d B : Nat) (hd : d < B) :
    (x * B + d) % B = d ∧ (x * B + d) / B = x := by
  have hB : 0 < B := Nat.lt_of_le_of_lt (Nat.zero_le d) hd
  constructor
  · rw [Nat.mul_comm, Nat.mul_add_mod, Nat.mod_eq_of_lt hd]
  · rw [Nat.mul_comm, Nat.mul_add_div hB, Nat.div_eq_of_lt hd,
      Nat.add_zero]

/-- Decoding inverts the chord one-hot index on valid labels. -/
theorem decode_chord_round_trip (cfg : LabelConfig) (l : ChordLabel)
    (hV : l.Valid cfg) :
    decodeChordLabel cfg (l.get_one_hot_index cfg) = l := by
  obtain ⟨r, t, inv, rr, m⟩ := l
  obtain ⟨hr, ht, hinv, hrel⟩ := hV
  cases hI : cfg.useInversions <;> cases hR : cfg.useRelative <;>
    simp only [hI, hR] at hinv hrel
  · -- no inversions, no relative chords
    obtain ⟨hrr, hm⟩ := hrel
    subst hinv
    subst hrr
    subst hm
    have e3 := (digit_mod_div r t cfg.numChordTypes ht).1
    have e4 := (digit_mod_div r t cfg.numChordTypes ht).2
    have e5 := Nat.mod_eq_of_lt hr
    simp [decodeChordLabel, ChordLabel.get_one_hot_index, hI, hR,
      ChordLabel.mk.injEq, e3, e4, e5]
  · -- no inversions, relative chords tracked
    obtain ⟨hrr, hm⟩ := hrel
    subst hinv
    have e3 := (digit_mod_div ((m * cfg.numPitches + rr) * cfg.numPitches
      + r) t cfg.numChordTypes ht).1
    have e4 := (digit_mod_div ((m * cfg.numPitches + rr) * cfg.numPitches
      + r) t cfg.numChordTypes ht).2
    have e5 := (digit_mod_div (m * cfg.numPitches + rr) r
      cfg.numPitches hr).1
    have e6 := (digit_mod_div (m * cfg.numPitches + rr) r
      cfg.numPitches hr).2
    have e7 := (digit_mod_div m rr cfg.numPitches hrr).1
    have e8 := (digit_mod_div m rr cfg.numPitches hrr).2
    simp [decodeChordLabel, ChordLabel.get_one_hot_index, hI, hR,
      ChordLabel.mk.injEq, e3, e4, e5, e6, e7, e8]
  · -- inversions tracked, no relative chords
    obtain ⟨hrr, hm⟩ := hrel
    subst hrr
    subst hm
    have e1 := (digit_mod_div (r * cfg.numChordTypes + t) inv 4 hinv).1
    have e2 := (digit_mod_div (r * cfg.numChordTypes + t) inv 4 hinv).2
    have e3 := (digit_mod_div r t cfg.numChordTypes ht).1
    have e4 := (digit_mod_div r t cfg.numChordTypes ht).2
    have e5 := Nat.mod_eq_of_lt hr
    simp [decodeChordLabel, ChordLabel.get_one_hot_index, hI, hR,
      ChordLabel.mk.injEq, e1, e2, e3, e4, e5]
  · -- inversions and relative chords tracked
    obtain ⟨hrr, hm⟩ := hrel
    have e1 := (digit_mod_div (((m * cfg.numPitches + rr) * cfg.numPitches
      + r) * cfg.numChordTypes + t) inv 4 hinv).1
    have e2 := (digit_mod_div (((m * cfg.numPitches + rr) * cfg.numPitches
      + r) * cfg.numChordTypes + t) inv 4 hinv).2
    have e3 := (digit_mod_div ((m * cfg.numPitches + rr) * cfg.numPitches
      + r) t cfg.numChordTypes ht).1
    have e4 := (digit_mod_div ((m * cfg.numPitches + rr) * cfg.numPitches
      + r) t cfg.numChordTypes ht).2
    have e5 := (digit_mod_div (m * cfg.numPitches + rr) r
      cfg.numPitches hr).1
    have e6 := (digit_mod_div (m * cfg.numPitches + rr) r
      cfg.numPitches hr).2
    have e7 := (digit_mod_div m rr cfg.numPitches hrr).1
    have e8 := (digit_mod_div m rr cfg.numPitches hrr).2
    simp [decodeChordLabel, ChordLabel.get_one_hot_index, hI, hR,
      ChordLabel.mk.injEq, e1, e2, e3, e4, e5, e6, e7, e8]

/-- Decoding inverts the key one-hot index on valid labels. -/
theorem decode_key_round_trip (cfg : LabelConfig) (k : KeyLabel)
    (hV : k.Valid cfg) :
    decodeKeyLabel cfg (k.get_one_hot_index cfg) = k := by
  obtain ⟨tonic, mode⟩ := k
  obtain ⟨htonic, _⟩ := hV
  have e1 := (digit_mod_div mode tonic cfg.numPitches htonic).1
  have e2 := (digit_mod_div mode tonic cfg.numPitches htonic).2
  simp [decodeKeyLabel, KeyLabel.get_one_hot_index, KeyLabel.mk.injEq,
    e1, e2]

/-- C4: under a fixed configuration the label-to-index mapping is injective
and invertible: decoding the one-hot index returned by `get_one_hot_index`
yields the original label, and two distinct valid labels never share an
index — for chord labels and for key labels alike. -/
theorem label_one_hot_round_trip (cfg : LabelConfig) :
    (∀ l : ChordLabel, l.Valid cfg →
      decodeChordLabel cfg (l.get_one_hot_index cfg) = l) ∧
    (∀ l1 l2 : ChordLabel, l1.Valid cfg → l2.Valid cfg →
      l1.get_one_hot_index cfg = l2.get_one_hot_index cfg → l1 = l2) ∧
    (∀ k : KeyLabel, k.Valid cfg →
      decodeKeyLabel cfg (k.get_one_hot_index cfg) = k) ∧
    (∀ k1 k2 : KeyLabel, k1.Valid cfg → k2.Valid cfg →
      k1.get_one_hot_index cfg = k2.get_one_hot_index cfg → k1 = k2) := by
  refine ⟨decode_chord_round_trip cfg, ?_, decode_key_round_trip cfg, ?_⟩
  · intro l1 l2 h1 h2 hidx
    rw [← decode_chord_round_trip cfg l1 h1,
      ← decode_chord_round_trip cfg l2 h2, hidx]
  · intro k1 k2 h1 h2 hidx
    rw [← decode_key_round_trip cfg k1 h1,
      ← decode_key_round_trip cfg k2 h2, hidx]

/-- Witness for C4: a TPC-style configuration with 35 pitches, 10 chord
types, inversions and relative chords tracked; a concrete chord label and a
concrete key label round-trip through their one-hot indices. -/
theorem label_one_hot_round_trip_witness :
    decodeChordLabel ⟨35, 10, true, true⟩
      (ChordLabel.get_one_hot_index ⟨35, 10, true, true⟩
        ⟨3, 2, 1, 5, 1⟩) = ⟨3, 2, 1, 5, 1⟩ ∧
    decodeKeyLabel ⟨35, 10, true, true⟩
      (KeyLabel.get_one_hot_index ⟨35, 10, true, true⟩ ⟨7, 1⟩) = ⟨7, 1⟩ :=
  ⟨(label_one_hot_round_trip ⟨35, 10, true, true⟩).1 ⟨3, 2, 1, 5, 1⟩
      (by decide),
   (label_one_hot_round_trip ⟨35, 10, true, true⟩).2.2.1 ⟨7, 1⟩
      (by decide)⟩
